import Mathlib

/-!
Verification development for the book_rag repository: a RAG notebook that
loads a PDF, chunks it with RecursiveCharacterTextSplitter, embeds the
chunks, stores them in a Pinecone index and a ChromaDB collection, runs a
RetrievalQA chain against each backend for a fixed query list while timing
each run, and finally deletes the index and the collection.

The notebook itself is a linear sequence of library calls.  The components
the specification describes (Chunker, Vector Index, comparison harness)
are embedded below: logic that appears literally in the notebook (the
guarded index creation, the unguarded collection deletion, the query loop,
the timing brackets) is translated from that source; the library-internal
operations (the splitting algorithm, the store primitives) are modelled
from the specification, as marked on each definition.
-/

/-- Error taxonomy of the specification (section 7). -/
inductive RagError where
  | configurationError
  | authenticationError
  | transientNetworkError
  | schemaConflictError
  | storageError
  | embeddingServiceError
  | generationError
  | notFoundError
deriving DecidableEq, Repr

/-- A chunk: a contiguous substring of the document text together with its
sequence index (data model, section 3). -/
structure Chunk where
  text : List Char
  seqIndex : Nat
deriving DecidableEq, Repr

/-- Modelled from the spec: the splitting algorithm lives inside the
third-party RecursiveCharacterTextSplitter, whose code is not in this
repository.  The spec describes chunks as contiguous substrings of size at
most chunk_size whose consecutive members overlap by exactly chunk_overlap
characters, with a document shorter than chunk_size giving a single chunk;
the sliding window below, advancing by step = chunk_size - chunk_overlap,
is that description.  An empty document gives no chunks, matching the
invariant that every chunk is nonempty. -/
def chunkTextsGo (size step : Nat) : Nat → List Char → List (List Char)
  | _, [] => []
  | 0, _ :: _ => []
  | fuel + 1, c :: cs =>
      if (c :: cs).length ≤ size then [c :: cs]
      else (c :: cs).take size :: chunkTextsGo size step fuel ((c :: cs).drop step)

/-- The sliding window itself: the fuel argument of chunkTextsGo only
bounds the recursion depth and the document length always suffices. -/
def chunkTexts (size step : Nat) (s : List Char) : List (List Char) :=
  if step = 0 then [] else chunkTextsGo size step s.length s

/-- Modelled from the spec: the Chunker contract of section 4.1.
Parameters are validated first (chunk_size > 0, 0 <= chunk_overlap <
chunk_size; violation fails with ConfigurationError before anything else),
then the text is split and each chunk receives its sequence index. -/
def chunk (doc : List Char) (chunk_size chunk_overlap : Int) :
    Except RagError (List Chunk) :=
  if chunk_size ≤ 0 ∨ chunk_overlap < 0 ∨ chunk_overlap ≥ chunk_size then
    .error .configurationError
  else
    .ok (((chunkTexts chunk_size.toNat (chunk_size - chunk_overlap).toNat
      doc).enum).map (fun p => ⟨p.2, p.1⟩))

/-- Concatenation that removes the known overlap: the first chunk is kept
whole and every later chunk contributes everything after its first ov
characters. -/
def recon (ov : Nat) : List (List Char) → List Char
  | [] => []
  | c :: cs => c ++ (cs.map (List.drop ov)).flatten

/-- Consecutive chunks overlap by exactly ov characters: the last ov
characters of each chunk equal the first ov characters of the next. -/
def overlapsBy (ov : Nat) : List (List Char) → Bool
  | a :: b :: rest =>
      (a.drop (a.length - ov) == b.take ov) && overlapsBy ov (b :: rest)
  | _ => true

theorem chunkTextsGo_flatten (size step ov : Nat) (hstep : step ≠ 0)
    (hsum : ov + step = size) :
    ∀ (fuel : Nat) (s : List Char), s.length ≤ fuel →
      ((chunkTextsGo size step fuel s).map (List.drop ov)).flatten =
        s.drop ov := by
  intro fuel
  induction fuel with
  | zero =>
    intro s hs
    cases s with
    | nil => simp [chunkTextsGo]
    | cons c cs => simp at hs
  | succ fuel ih =>
    intro s hs
    cases s with
    | nil => simp [chunkTextsGo]
    | cons c cs =>
      rw [chunkTextsGo]
      by_cases hlen : (c :: cs).length ≤ size
      · rw [if_pos hlen]; simp
      · rw [if_neg hlen]
        have hs2 : ((c :: cs).drop step).length ≤ fuel := by
          simp only [List.length_drop, List.length_cons]
          simp only [List.length_cons] at hs hlen
          omega
        simp only [List.map_cons, List.flatten_cons, ih _ hs2]
        rw [List.drop_take, List.drop_drop]
        have h1 : size - ov = step := by omega
        have h2 : step + ov = ov + step := Nat.add_comm step ov
        rw [h1, h2, ← List.drop_drop, List.take_append_drop]

theorem recon_chunkTexts (size step ov : Nat) (s : List Char)
    (hstep : step ≠ 0) (hsum : ov + step = size) :
    recon ov (chunkTexts size step s) = s := by
  rw [chunkTexts, if_neg hstep]
  cases s with
  | nil => simp [chunkTextsGo, recon]
  | cons c cs =>
    simp only [List.length_cons]
    rw [chunkTextsGo]
    by_cases hlen : (c :: cs).length ≤ size
    · rw [if_pos hlen]; simp [recon]
    · rw [if_neg hlen]
      have hs2 : ((c :: cs).drop step).length ≤ cs.length := by
        simp only [List.length_drop, List.length_cons]
        omega
      simp only [recon, chunkTextsGo_flatten size step ov hstep hsum _ _ hs2]
      rw [List.drop_drop]
      have h1 : step + ov = size := by omega
      rw [h1, List.take_append_drop]

theorem chunkTextsGo_chunk_length (size step : Nat) (hsize : size ≠ 0) :
    ∀ (fuel : Nat) (s : List Char), ∀ c ∈ chunkTextsGo size step fuel s,
      0 < c.length ∧ c.length ≤ size := by
  intro fuel
  induction fuel with
  | zero =>
    intro s c hc
    cases s with
    | nil => simp [chunkTextsGo] at hc
    | cons a as => simp [chunkTextsGo] at hc
  | succ fuel ih =>
    intro s c hc
    cases s with
    | nil => simp [chunkTextsGo] at hc
    | cons a as =>
      rw [chunkTextsGo] at hc
      by_cases hlen : (a :: as).length ≤ size
      · rw [if_pos hlen] at hc
        simp only [List.mem_singleton] at hc
        subst hc
        refine ⟨by simp, hlen⟩
      · rw [if_neg hlen] at hc
        rcases List.mem_cons.mp hc with h | h
        · subst h
          constructor
          · simp only [List.length_take, List.length_cons]
            simp only [List.length_cons] at hlen
            omega
          · simp only [List.length_take]
            exact Nat.min_le_left _ _
        · exact ih _ c h

theorem chunkTextsGo_head_take (size step ov fuel : Nat) (x : List Char)
    (b : List Char) (l : List (List Char)) (hov : ov ≤ size)
    (h : chunkTextsGo size step fuel x = b :: l) :
    b.take ov = x.take ov := by
  cases x with
  | nil => simp [chunkTextsGo] at h
  | cons a as =>
    cases fuel with
    | zero => simp [chunkTextsGo] at h
    | succ fuel =>
      rw [chunkTextsGo] at h
      by_cases hlen : (a :: as).length ≤ size
      · rw [if_pos hlen] at h
        have hb : b = a :: as := by
          injection h with h1 h2
          exact h1.symm
        rw [hb]
      · rw [if_neg hlen] at h
        injection h with h1 h2
        rw [← h1, List.take_take, Nat.min_eq_left hov]

theorem overlapsBy_chunkTextsGo (size step ov : Nat) (hstep : step ≠ 0)
    (hsum : ov + step = size) :
    ∀ (fuel : Nat) (s : List Char), s.length ≤ fuel →
      overlapsBy ov (chunkTextsGo size step fuel s) = true := by
  intro fuel
  induction fuel with
  | zero =>
    intro s hs
    cases s with
    | nil => simp [chunkTextsGo, overlapsBy]
    | cons a as => simp at hs
  | succ fuel ih =>
    intro s hs
    cases s with
    | nil => simp [chunkTextsGo, overlapsBy]
    | cons a as =>
      rw [chunkTextsGo]
      by_cases hlen : (a :: as).length ≤ size
      · rw [if_pos hlen]; rfl
      · rw [if_neg hlen]
        have hs2 : ((a :: as).drop step).length ≤ fuel := by
          simp only [List.length_drop, List.length_cons]
          simp only [List.length_cons] at hs
          omega
        have htail := ih ((a :: as).drop step) hs2
        cases hGo : chunkTextsGo size step fuel ((a :: as).drop step) with
        | nil => rfl
        | cons b l =>
          rw [hGo] at htail
          simp only [overlapsBy, htail, Bool.and_true]
          have hb : b.take ov = ((a :: as).drop step).take ov :=
            chunkTextsGo_head_take size step ov fuel _ b l (by omega) hGo
          have hlen2 : ((a :: as).take size).length = size := by
            simp only [List.length_take, List.length_cons]
            simp only [List.length_cons] at hlen
            omega
          rw [hlen2]
          have hsub : size - ov = step := by omega
          rw [hsub, List.drop_take, hb]
          have hsub2 : size - step = ov := by omega
          rw [hsub2]
          exact beq_self_eq_true _

theorem chunk_ok_texts (doc : List Char) (cs co : Int) (chunks : List Chunk)
    (h1 : 0 < cs) (h2 : 0 ≤ co) (h3 : co < cs)
    (h : chunk doc cs co = .ok chunks) :
    chunks.map Chunk.text = chunkTexts cs.toNat (cs - co).toNat doc := by
  rw [chunk, if_neg (by omega)] at h
  simp only [Except.ok.injEq] at h
  subst h
  rw [List.map_map]
  exact List.enum_map_snd _

/-- Claim C1: for every document and every valid parameter pair
(chunk_size > 0, 0 <= chunk_overlap < chunk_size), concatenating the
chunks produced by the Chunker while removing the known overlap between
consecutive chunks reconstructs the original text exactly. -/
theorem chunk_roundtrip_exact (doc : List Char) (cs co : Int)
    (chunks : List Chunk) (h1 : 0 < cs) (h2 : 0 ≤ co) (h3 : co < cs)
    (h : chunk doc cs co = .ok chunks) :
    recon co.toNat (chunks.map Chunk.text) = doc := by
  rw [chunk_ok_texts doc cs co chunks h1 h2 h3 h]
  exact recon_chunkTexts cs.toNat (cs - co).toNat co.toNat doc
    (by omega) (by omega)

theorem chunk_roundtrip_exact_witness :
    (0 : Int) < 9 ∧ (0 : Int) ≤ 4 ∧ (4 : Int) < 9 ∧
    recon 4 (([⟨"AAAA BBBB".toList, 0⟩, ⟨"BBBB CCCC".toList, 1⟩,
      ⟨"CCCC DDDD".toList, 2⟩] : List Chunk).map Chunk.text) =
      "AAAA BBBB CCCC DDDD".toList :=
  ⟨by decide, by decide, by decide,
    chunk_roundtrip_exact "AAAA BBBB CCCC DDDD".toList 9 4
      [⟨"AAAA BBBB".toList, 0⟩, ⟨"BBBB CCCC".toList, 1⟩,
       ⟨"CCCC DDDD".toList, 2⟩] (by decide) (by decide) (by decide) rfl⟩

/-- Claim C3: for every input with chunk_size <= 0 or chunk_overlap >=
chunk_size, the chunk operation fails with ConfigurationError and never
produces chunks with such parameters. -/
theorem chunk_rejects_invalid_params (doc : List Char) (cs co : Int)
    (h : cs ≤ 0 ∨ co ≥ cs) :
    chunk doc cs co = .error .configurationError := by
  have hcond : cs ≤ 0 ∨ co < 0 ∨ co ≥ cs := by tauto
  rw [chunk, if_pos hcond]

theorem chunk_rejects_invalid_params_witness :
    ((0 : Int) ≤ 0 ∨ (0 : Int) ≥ 0) ∧
    chunk "abc".toList 0 0 = .error .configurationError :=
  ⟨Or.inl (by decide),
    chunk_rejects_invalid_params "abc".toList 0 0 (Or.inl (by decide))⟩

/-- Claim C7: for every document and valid parameters, every chunk
produced by the Chunker has 0 < length <= chunk_size, and consecutive
chunks overlap by exactly chunk_overlap characters (proved here for all
consecutive pairs, the last one included). -/
theorem chunk_invariants_hold (doc : List Char) (cs co : Int)
    (chunks : List Chunk) (h1 : 0 < cs) (h2 : 0 ≤ co) (h3 : co < cs)
    (h : chunk doc cs co = .ok chunks) :
    (∀ c ∈ chunks, 0 < c.text.length ∧ c.text.length ≤ cs.toNat) ∧
    overlapsBy co.toNat (chunks.map Chunk.text) = true := by
  have htexts := chunk_ok_texts doc cs co chunks h1 h2 h3 h
  constructor
  · intro c hc
    have hmem : c.text ∈ chunks.map Chunk.text :=
      List.mem_map_of_mem Chunk.text hc
    rw [htexts, chunkTexts, if_neg (by omega)] at hmem
    exact chunkTextsGo_chunk_length cs.toNat (cs - co).toNat
      (by omega) _ _ _ hmem
  · rw [htexts, chunkTexts, if_neg (by omega)]
    exact overlapsBy_chunkTextsGo cs.toNat (cs - co).toNat co.toNat
      (by omega) (by omega) _ _ (Nat.le_refl _)

theorem chunk_invariants_hold_witness :
    (∀ c ∈ ([⟨"AAAA BBBB".toList, 0⟩, ⟨"BBBB CCCC".toList, 1⟩,
        ⟨"CCCC DDDD".toList, 2⟩] : List Chunk),
      0 < c.text.length ∧ c.text.length ≤ Int.toNat 9) ∧
    overlapsBy (Int.toNat 4) (([⟨"AAAA BBBB".toList, 0⟩,
      ⟨"BBBB CCCC".toList, 1⟩, ⟨"CCCC DDDD".toList, 2⟩] :
        List Chunk).map Chunk.text) = true :=
  chunk_invariants_hold "AAAA BBBB CCCC DDDD".toList 9 4
    [⟨"AAAA BBBB".toList, 0⟩, ⟨"BBBB CCCC".toList, 1⟩,
     ⟨"CCCC DDDD".toList, 2⟩] (by decide) (by decide) (by decide) rfl

/-- Claim C8: chunking the document AAAA BBBB CCCC DDDD with chunk_size 9
and chunk_overlap 4 yields exactly the three chunks AAAA BBBB, BBBB CCCC
and CCCC DDDD, each overlapping the previous by 4 characters. -/
theorem chunk_example_scenario :
    chunk "AAAA BBBB CCCC DDDD".toList 9 4 =
      .ok [⟨"AAAA BBBB".toList, 0⟩, ⟨"BBBB CCCC".toList, 1⟩,
           ⟨"CCCC DDDD".toList, 2⟩] ∧
    overlapsBy 4 ["AAAA BBBB".toList, "BBBB CCCC".toList,
      "CCCC DDDD".toList] = true :=
  ⟨rfl, by decide⟩


/-- Translated from the source query loop (Step 6): for one query, run
the Pinecone chain first and the Chroma chain second; an exception from
either run propagates, which the Except matches below make explicit. -/
def runQuery (pq cq : String → Except RagError String) (q : String) :
    Except RagError (String × String × String) :=
  match pq q with
  | .error e => .error e
  | .ok pr =>
    match cq q with
    | .error e => .error e
    | .ok cr => .ok (q, pr, cr)

/-- Translated from the source query loop: the queries are processed in
order and an exception raised while processing one of them aborts the
remaining iterations, since the notebook has no handler around the loop
body. -/
def comparisonRun (pq cq : String → Except RagError String) :
    List String → Except RagError (List (String × String × String))
  | [] => .ok []
  | q :: rest =>
    match runQuery pq cq q with
    | .error e => .error e
    | .ok r =>
      match comparisonRun pq cq rest with
      | .error e => .error e
      | .ok rs => .ok (r :: rs)

/-- A backend that raises on every query, for the concrete runs below. -/
def failingBackend : String → Except RagError String :=
  fun _ => .error .generationError

/-- A backend that answers every query, for the concrete runs below. -/
def succeedingBackend : String → Except RagError String :=
  fun _ => .ok "answer"

/-- Claim C2 counterexample: with a first backend that fails on the only
query and a second backend that would answer it, the comparison run
yields no result entry at all, so the second backend result for that
query is not produced. -/
theorem comparison_single_failure_aborts_cex :
    succeedingBackend "q1" = .ok "answer" ∧
    comparisonRun failingBackend succeedingBackend ["q1"] =
      .error .generationError :=
  ⟨rfl, rfl⟩

/-- Claim C2 as amended: a failure of the first backend on a query aborts
the whole comparison run with that error; no result for the other
backend, for that query or any later one, is produced. -/
theorem comparison_single_failure_aborts (pq cq : String → Except RagError String)
    (q : String) (rest : List String) (e : RagError)
    (h : pq q = .error e) :
    comparisonRun pq cq (q :: rest) = .error e := by
  rw [comparisonRun, runQuery, h]

theorem comparison_single_failure_aborts_witness :
    failingBackend "q1" = .error .generationError ∧
    comparisonRun failingBackend succeedingBackend ["q1", "q2"] =
      .error .generationError :=
  ⟨rfl, comparison_single_failure_aborts failingBackend succeedingBackend
    "q1" ["q2"] .generationError rfl⟩

/-- Modelled from the spec and the chain structure the source configures
in Step 5: a RetrievalQA chain retrieves passages for the query (the
retrieval phase covers query embedding and the vector-store search) and
then generates an answer from them with the LLM; each phase reports the
abstract clock ticks it consumes. -/
structure QAChain where
  retrieve : String → List (List Char) × Nat
  generate : String → List (List Char) → String × Nat

/-- Running the chain advances the clock by the duration of the retrieval
phase and of the generation phase together. -/
def qaRun (ch : QAChain) (q : String) (clock : Nat) : String × Nat :=
  let r := ch.retrieve q
  let g := ch.generate q r.1
  (g.1, clock + r.2 + g.2)

/-- Translated from the source timing bracket in Step 6: read the clock,
run the chain, and record the clock difference as the latency for this
query and backend. -/
def timedRun (ch : QAChain) (q : String) (clock : Nat) :
    String × Nat × Nat :=
  let start := clock
  let r := qaRun ch q clock
  (r.1, r.2 - start, r.2)

/-- Claim C9: the recorded per-backend, per-query latency is the
wall-clock time of the whole RetrievalQA run, the retrieval phase plus
one full LLM generation, never the retrieval time alone: the generation
duration is always contained in the measurement. -/
theorem latency_covers_full_chain (ch : QAChain) (q : String) (clock : Nat) :
    (timedRun ch q clock).2.1 =
      (ch.retrieve q).2 + (ch.generate q (ch.retrieve q).1).2 ∧
    (ch.generate q (ch.retrieve q).1).2 ≤ (timedRun ch q clock).2.1 := by
  refine ⟨?_, ?_⟩ <;> simp only [timedRun, qaRun] <;> omega

/-- Modelled from the spec: delete_index of the managed backend (section
4.3); deleting an absent index fails with NotFoundError. -/
def delete_index (indexes : List String) (name : String) :
    Except RagError (List String) :=
  if name ∈ indexes then .ok (indexes.erase name)
  else .error .notFoundError

/-- Modelled from the spec: delete_collection of the local backend
(section 4.3); deleting an absent collection fails with NotFoundError. -/
def delete_collection (collections : List String) (name : String) :
    Except RagError (List String) :=
  if name ∈ collections then .ok (collections.erase name)
  else .error .notFoundError

/-- Translated from the source cleanup cell: the Pinecone index is
deleted only when its name appears in list_indexes, so the delete call
itself never sees an absent index. -/
def pineconeCleanup (indexes : List String) : Except RagError (List String) :=
  if "book-rag" ∈ indexes then delete_index indexes "book-rag"
  else .ok indexes

/-- Translated from the source cleanup cell: the ChromaDB collection is
deleted with no existence check and no handler around the call. -/
def chromaCleanup (collections : List String) : Except RagError (List String) :=
  delete_collection collections "book-rag"

/-- True when the operation did not raise. -/
def cleanupSucceeds : Except RagError (List String) → Bool
  | .ok _ => true
  | .error _ => false

/-- Claim C4 counterexample: deleting the ChromaDB collection when it
does not exist raises NotFoundError to the caller, so the idempotent
delete convention does not hold on the local-persistent backend. -/
theorem chroma_cleanup_raises_cex :
    chromaCleanup [] = .error .notFoundError := by
  rw [chromaCleanup, delete_collection, if_neg (by simp)]

/-- Claim C4 as amended: the managed-cloud cleanup never raises, because
it checks existence before deleting; the local-persistent cleanup calls
delete_collection unguarded, and on a nonexistent collection the
NotFoundError reaches the caller. -/
theorem cleanup_guarded_vs_unguarded (indexes collections : List String)
    (h : "book-rag" ∉ collections) :
    cleanupSucceeds (pineconeCleanup indexes) = true ∧
    chromaCleanup collections = .error .notFoundError := by
  refine ⟨?_, ?_⟩
  · by_cases hm : "book-rag" ∈ indexes
    · rw [pineconeCleanup, if_pos hm, delete_index, if_pos hm]; rfl
    · rw [pineconeCleanup, if_neg hm]; rfl
  · rw [chromaCleanup, delete_collection, if_neg h]

theorem cleanup_guarded_vs_unguarded_witness :
    ("book-rag" ∉ ([] : List String)) ∧
    cleanupSucceeds (pineconeCleanup ["book-rag"]) = true ∧
    chromaCleanup [] = .error .notFoundError :=
  ⟨by simp, cleanup_guarded_vs_unguarded ["book-rag"] [] (by simp)⟩

/-- Metadata of a vector index: name, dimension and distance metric,
fixed at creation (data model, section 3). -/
structure IndexMeta where
  name : String
  dimension : Nat
  metric : String
deriving DecidableEq, Repr

/-- Modelled from the spec: list_indexes returns the existing index
names. -/
def list_indexes (indexes : List IndexMeta) : List String :=
  indexes.map IndexMeta.name

/-- Translated from the source Step 3: the index is created only when the
name book-rag is absent from list_indexes, with dimension 384 and cosine
metric; when the name is present nothing is compared and nothing is
created. -/
def createIndexStep (indexes : List IndexMeta) :
    Except RagError (List IndexMeta) :=
  if "book-rag" ∈ list_indexes indexes then .ok indexes
  else .ok (indexes ++ [⟨"book-rag", 384, "cosine"⟩])

/-- Claim C5 counterexample: an existing index named book-rag with
dimension 512 and a non-cosine metric does not make the creation step
fail with SchemaConflictError; the step succeeds as a no-op and the
mismatched schema survives. -/
theorem create_index_ignores_schema_cex :
    createIndexStep [⟨"book-rag", 512, "dotproduct"⟩] =
      .ok [⟨"book-rag", 512, "dotproduct"⟩] ∧
    createIndexStep [⟨"book-rag", 512, "dotproduct"⟩] ≠
      .error .schemaConflictError := by
  refine ⟨?_, ?_⟩ <;> simp [createIndexStep, list_indexes]

/-- Claim C5 as amended: index creation is guarded by the name check
alone; when the name exists the step is a no-op regardless of the stored
dimension and metric (never SchemaConflictError), and when it is absent
a 384-dimensional cosine index is appended. -/
theorem create_index_guarded_by_name_only (indexes : List IndexMeta) :
    ("book-rag" ∈ list_indexes indexes →
      createIndexStep indexes = .ok indexes) ∧
    ("book-rag" ∉ list_indexes indexes →
      createIndexStep indexes = .ok (indexes ++ [⟨"book-rag", 384, "cosine"⟩])) := by
  constructor
  · intro h; rw [createIndexStep, if_pos h]
  · intro h; rw [createIndexStep, if_neg h]

theorem create_index_guarded_by_name_only_witness :
    createIndexStep [⟨"book-rag", 512, "dotproduct"⟩] =
      .ok [⟨"book-rag", 512, "dotproduct"⟩] ∧
    createIndexStep [] = .ok [⟨"book-rag", 384, "cosine"⟩] :=
  ⟨(create_index_guarded_by_name_only [⟨"book-rag", 512, "dotproduct"⟩]).1
      (by simp [list_indexes]),
   (create_index_guarded_by_name_only []).2 (by simp [list_indexes])⟩

/-- Modelled from the spec: the stable record id of section 4.6, built
from the document source and the chunk sequence index. -/
def stableId (source : String) (seqIndex : Nat) : String :=
  source ++ ":" ++ toString seqIndex

/-- The persisted unit of a vector index, reduced to the fields the
claims are about (data model, section 3). -/
structure VectorRecord where
  id : String
  text : List Char
deriving DecidableEq, Repr

/-- Modelled from the spec: upsert adds or replaces records by id
(section 4.3, the common contract of both backend variants). -/
def upsertOne : List VectorRecord → VectorRecord → List VectorRecord
  | [], r => [r]
  | a :: as, r => if a.id == r.id then r :: as else a :: upsertOne as r

/-- Upserting a batch folds the single-record operation over it. -/
def upsert (store : List VectorRecord) (rs : List VectorRecord) :
    List VectorRecord :=
  rs.foldl upsertOne store

theorem filter_id_nil (l : List VectorRecord) (x : String)
    (h : ∀ s ∈ l, s.id ≠ x) :
    l.filter (fun s => s.id == x) = [] := by
  induction l with
  | nil => rfl
  | cons a as ih =>
    have ha : (a.id == x) = false :=
      beq_eq_false_iff_ne.mpr (h a (List.mem_cons_self a as))
    have ih2 := ih (fun s hs => h s (List.mem_cons_of_mem a hs))
    simp [List.filter_cons, ha, ih2]

theorem upsertOne_filter (store : List VectorRecord) (r : VectorRecord)
    (hnd : (store.map VectorRecord.id).Nodup) :
    (upsertOne store r).filter (fun s => s.id == r.id) = [r] := by
  induction store with
  | nil => simp [upsertOne, List.filter_cons]
  | cons a as ih =>
    rw [List.map_cons, List.nodup_cons] at hnd
    rw [upsertOne]
    by_cases hb : (a.id == r.id) = true
    · rw [if_pos hb]
      have heq : a.id = r.id := eq_of_beq hb
      have hall : ∀ s ∈ as, s.id ≠ r.id := by
        intro s hs hcontra
        exact hnd.1 (heq ▸ hcontra ▸ List.mem_map_of_mem VectorRecord.id hs)
      simp [List.filter_cons, filter_id_nil as r.id hall]
    · rw [if_neg hb]
      have hfalse : (a.id == r.id) = false := by simpa using hb
      simp only [List.filter_cons, hfalse, Bool.false_eq_true, if_false]
      exact ih hnd.2

theorem upsertOne_ids_mem (store : List VectorRecord) (r : VectorRecord)
    (x : String) (hx : x ∈ (upsertOne store r).map VectorRecord.id) :
    x ∈ store.map VectorRecord.id ∨ x = r.id := by
  induction store with
  | nil =>
    simp [upsertOne] at hx
    exact Or.inr hx
  | cons a as ih =>
    rw [upsertOne] at hx
    by_cases hb : (a.id == r.id) = true
    · rw [if_pos hb] at hx
      simp only [List.map_cons, List.mem_cons] at hx ⊢
      tauto
    · rw [if_neg hb] at hx
      simp only [List.map_cons, List.mem_cons] at hx ⊢
      rcases hx with h | h
      · tauto
      · rcases ih h with h2 | h2 <;> tauto

theorem upsertOne_ids_nodup (store : List VectorRecord) (r : VectorRecord)
    (hnd : (store.map VectorRecord.id).Nodup) :
    ((upsertOne store r).map VectorRecord.id).Nodup := by
  induction store with
  | nil => simp [upsertOne]
  | cons a as ih =>
    rw [List.map_cons, List.nodup_cons] at hnd
    rw [upsertOne]
    by_cases hb : (a.id == r.id) = true
    · rw [if_pos hb]
      have heq : a.id = r.id := eq_of_beq hb
      rw [List.map_cons, List.nodup_cons]
      exact ⟨heq ▸ hnd.1, hnd.2⟩
    · rw [if_neg hb]
      rw [List.map_cons, List.nodup_cons]
      refine ⟨?_, ih hnd.2⟩
      intro hmem
      rcases upsertOne_ids_mem as r a.id hmem with h | h
      · exact hnd.1 h
      · exact hb (beq_iff_eq.mpr h)

/-- Claim C6: each record id is the stable id of document source plus
chunk sequence index, and upserting twice under one such id leaves
exactly one record with that id holding the latest content, on both
backend variants (which share the modelled upsert contract). -/
theorem upsert_stable_id_idempotent (pstore cstore : List VectorRecord)
    (source : String) (i : Nat) (t1 t2 : List Char)
    (hp : (pstore.map VectorRecord.id).Nodup)
    (hc : (cstore.map VectorRecord.id).Nodup) :
    (upsert pstore [⟨stableId source i, t1⟩, ⟨stableId source i, t2⟩]).filter
      (fun s => s.id == stableId source i) = [⟨stableId source i, t2⟩] ∧
    (upsert cstore [⟨stableId source i, t1⟩, ⟨stableId source i, t2⟩]).filter
      (fun s => s.id == stableId source i) = [⟨stableId source i, t2⟩] := by
  refine ⟨?_, ?_⟩
  · rw [upsert]
    simp only [List.foldl_cons, List.foldl_nil]
    exact upsertOne_filter (upsertOne pstore ⟨stableId source i, t1⟩)
      ⟨stableId source i, t2⟩
      (upsertOne_ids_nodup pstore ⟨stableId source i, t1⟩ hp)
  · rw [upsert]
    simp only [List.foldl_cons, List.foldl_nil]
    exact upsertOne_filter (upsertOne cstore ⟨stableId source i, t1⟩)
      ⟨stableId source i, t2⟩
      (upsertOne_ids_nodup cstore ⟨stableId source i, t1⟩ hc)

theorem upsert_stable_id_idempotent_witness :
    ((([] : List VectorRecord).map VectorRecord.id).Nodup) ∧
    (upsert [] [⟨stableId "book.pdf" 0, "old".toList⟩,
        ⟨stableId "book.pdf" 0, "new".toList⟩]).filter
      (fun s => s.id == stableId "book.pdf" 0) =
      [⟨stableId "book.pdf" 0, "new".toList⟩] ∧
    (upsert [] [⟨stableId "book.pdf" 0, "old".toList⟩,
        ⟨stableId "book.pdf" 0, "new".toList⟩]).filter
      (fun s => s.id == stableId "book.pdf" 0) =
      [⟨stableId "book.pdf" 0, "new".toList⟩] :=
  ⟨by simp,
    upsert_stable_id_idempotent [] [] "book.pdf" 0 "old".toList "new".toList
      (by simp) (by simp)⟩

/-- Modelled from the spec: the orchestrator builds one Vector Record per
chunk with the stable id of section 4.6. -/
def mkRecords (source : String) (chunks : List Chunk) : List VectorRecord :=
  chunks.map (fun c => ⟨stableId source c.seqIndex, c.text⟩)

/-- Translated from the source Step 3: populate the Pinecone index from
the docs list. -/
def pineconePopulate (source : String) (docs : List Chunk) :
    List VectorRecord :=
  upsert [] (mkRecords source docs)

/-- Translated from the source Step 4: populate the ChromaDB collection
from the same docs list. -/
def chromaPopulate (source : String) (docs : List Chunk) :
    List VectorRecord :=
  upsert [] (mkRecords source docs)

/-- Translated from the source Steps 1, 3 and 4: the document is chunked
once and the single resulting docs list is handed to both stores. -/
def ingestBoth (source : String) (doc : List Char) (cs co : Int) :
    Except RagError (List VectorRecord × List VectorRecord) :=
  match chunk doc cs co with
  | .error e => .error e
  | .ok docs => .ok (pineconePopulate source docs, chromaPopulate source docs)

/-- Claim C10: both backends are populated from the identical chunk
sequence, so after ingestion the two stores hold the same records in the
same order, hence the same passages and the same count. -/
theorem both_backends_same_content (source : String) (doc : List Char)
    (cs co : Int) (p c : List VectorRecord)
    (h : ingestBoth source doc cs co = .ok (p, c)) :
    p = c ∧ p.map VectorRecord.text = c.map VectorRecord.text ∧
    p.length = c.length := by
  rw [ingestBoth] at h
  cases hch : chunk doc cs co with
  | error e =>
    rw [hch] at h
    simp at h
  | ok docs =>
    rw [hch] at h
    simp only [Except.ok.injEq, Prod.mk.injEq] at h
    have hpc : p = c := by
      rw [← h.1, ← h.2]
      rfl
    exact ⟨hpc, by rw [hpc], by rw [hpc]⟩

theorem both_backends_same_content_witness :
    ingestBoth "book.pdf" "ab".toList 9 4 =
      .ok ([⟨stableId "book.pdf" 0, "ab".toList⟩],
           [⟨stableId "book.pdf" 0, "ab".toList⟩]) ∧
    ([⟨stableId "book.pdf" 0, "ab".toList⟩] : List VectorRecord) =
      [⟨stableId "book.pdf" 0, "ab".toList⟩] ∧
    ([⟨stableId "book.pdf" 0, "ab".toList⟩] : List VectorRecord).map
        VectorRecord.text =
      ([⟨stableId "book.pdf" 0, "ab".toList⟩] : List VectorRecord).map
        VectorRecord.text ∧
    ([⟨stableId "book.pdf" 0, "ab".toList⟩] : List VectorRecord).length =
      ([⟨stableId "book.pdf" 0, "ab".toList⟩] : List VectorRecord).length :=
  ⟨rfl, both_backends_same_content "book.pdf" "ab".toList 9 4
    [⟨stableId "book.pdf" 0, "ab".toList⟩]
    [⟨stableId "book.pdf" 0, "ab".toList⟩] rfl⟩
